import Mathlib

/-
  Verification development for the autotag program (automatic repository
  tagging driven by Dockerfile / casc.yaml / plugins.txt changes).

  The program is shallowly embedded: Python strings are modelled as
  List Char, Python ints as Int (version components are Python ints),
  fallible constructors and the main scan loop return Except values.
  All definitions are executable.
-/

namespace Autotag

/-- Embeds the VersionUpdateTypes enum: values designating the type of a
software versioning update. -/
inductive VersionUpdateTypes
  | MAJOR
  | MINOR
  | PATCH
deriving DecidableEq, Fintype

/-- Embeds the attribute triple (major, minor, patch) shared by
SemanticVersion and JenkinsVersion objects after construction.  All three
attributes are Python ints (a JenkinsVersion with an absent patch stores
the reserved integer -1). -/
structure Version where
  major : Int
  minor : Int
  patch : Int
deriving DecidableEq

/-- Severity ranking used to state claims about the aggregator: the total
order MAJOR (3) greater than MINOR (2) greater than PATCH (1), with the
none sentinel ranked 0. -/
def sev_rank : Option VersionUpdateTypes → Nat
  | none => 0
  | some VersionUpdateTypes.PATCH => 1
  | some VersionUpdateTypes.MINOR => 2
  | some VersionUpdateTypes.MAJOR => 3

/-- One iteration of the for loop in Version.determine_greatest_update_type:
the if/elif chain updating the greatest accumulator. -/
def greatest_step (greatest : Option VersionUpdateTypes) (version : VersionUpdateTypes) :
    Option VersionUpdateTypes :=
  if version = VersionUpdateTypes.PATCH ∧
      (greatest ≠ some VersionUpdateTypes.MINOR ∧ greatest ≠ some VersionUpdateTypes.MAJOR) then
    some VersionUpdateTypes.PATCH
  else if version = VersionUpdateTypes.MINOR ∧ greatest ≠ some VersionUpdateTypes.MAJOR then
    some VersionUpdateTypes.MINOR
  else if version = VersionUpdateTypes.MAJOR then
    some VersionUpdateTypes.MAJOR
  else
    greatest

/-- Embeds Version.determine_greatest_update_type: folds the if/elif chain
over the list of update types, starting from greatest = None. -/
def Version.determine_greatest_update_type (versions : List VersionUpdateTypes) :
    Option VersionUpdateTypes :=
  versions.foldl greatest_step none

/-- Embeds Version.determine_update_types: appends MAJOR, MINOR, PATCH in
that order whenever the absolute difference of the respective components
is strictly positive. -/
def Version.determine_update_types (self v1 : Version) : List VersionUpdateTypes :=
  let update_types : List VersionUpdateTypes := []
  let update_types :=
    if 0 < (self.major - v1.major).natAbs then update_types ++ [VersionUpdateTypes.MAJOR]
    else update_types
  let update_types :=
    if 0 < (self.minor - v1.minor).natAbs then update_types ++ [VersionUpdateTypes.MINOR]
    else update_types
  let update_types :=
    if 0 < (self.patch - v1.patch).natAbs then update_types ++ [VersionUpdateTypes.PATCH]
    else update_types
  update_types

/-- Embeds SemanticVersion.set_patch (the source parameter named to is a
Lean keyword, hence tov). -/
def set_patch (v : Version) (tov : Int) : Version := { v with patch := tov }

/-- Embeds SemanticVersion.set_minor. -/
def set_minor (v : Version) (tov : Int) : Version := { v with minor := tov }

/-- Embeds SemanticVersion.set_major. -/
def set_major (v : Version) (tov : Int) : Version := { v with major := tov }

/-- Embeds SemanticVersion.increment_patch. -/
def increment_patch (v : Version) (amt : Int) : Version := { v with patch := v.patch + amt }

/-- Embeds SemanticVersion.increment_minor. -/
def increment_minor (v : Version) (amt : Int) : Version := { v with minor := v.minor + amt }

/-- Embeds SemanticVersion.increment_major. -/
def increment_major (v : Version) (amt : Int) : Version := { v with major := v.major + amt }

/-- Embeds the if/elif chain in main that applies the greatest repo update
type to the working copy new_latest_version. -/
def apply_update (v : Version) (greatest : Option VersionUpdateTypes) : Version :=
  if greatest = some VersionUpdateTypes.PATCH then
    increment_patch v 1
  else if greatest = some VersionUpdateTypes.MINOR then
    increment_minor (set_patch v 0) 1
  else if greatest = some VersionUpdateTypes.MAJOR then
    increment_major (set_minor (set_patch v 0) 0) 1
  else
    v

/-- The maximum of two optional severities under sev_rank; used only to
restate the fold step of the aggregator. -/
def omax (a b : Option VersionUpdateTypes) : Option VersionUpdateTypes :=
  if sev_rank a ≤ sev_rank b then b else a

/-
  String layer.  Python strings are modelled as List Char.  The two version
  regexes are embedded as deterministic recursive-descent matchers; the
  grammar is such that no backtracking of the Python engine can rescue a
  failed greedy match (each numeric or identifier run is followed in the
  pattern only by characters outside the run's class), so maximal-munch
  scanning is faithful.  The dollar anchor of Python re (without MULTILINE)
  matches at the end of the string or just before one trailing newline,
  which atEnd reproduces.  Character classes: the classes written literally
  in the regexes (the 0 and [1-9] alternatives, [a-zA-Z-], [0-9a-zA-Z-])
  are ASCII, but the backslash-d atom of Python re matches every Unicode
  decimal digit (category Nd), and Python int converts such digit runs by
  their decimal values, so for example the string 1 followed by the
  Arabic-Indic digit three parses as the integer thirteen; isDigitChar
  models backslash-d through the table of Nd digit runs.
-/

/-- The ASCII digit characters 0 through 9: the atoms written literally as
character ranges in the regexes (the 0 and [1-9] alternatives and the
digits inside [0-9a-zA-Z-]). -/
def isAsciiDigit (c : Char) : Bool :=
  decide (48 ≤ c.toNat) && decide (c.toNat ≤ 57)

/-- The first code point (the zero digit) of every ten-code-point run of
Unicode decimal digits, category Nd of Unicode 14.0.0, the character
database of the Python runtime executing the program; every decimal digit
is one of these bases plus its digit value. -/
def unicodeDigitBases : List Nat :=
  [48, 1632, 1776, 1984, 2406, 2534, 2662, 2790, 2918, 3046, 3174, 3302,
   3430, 3558, 3664, 3792, 3872, 4160, 4240, 6112, 6160, 6470, 6608, 6784,
   6800, 6992, 7088, 7232, 7248, 42528, 43216, 43264, 43472, 43504, 43600,
   44016, 65296, 66720, 68912, 69734, 69872, 69942, 70096, 70384, 70736,
   70864, 71248, 71360, 71472, 71904, 72016, 72784, 73040, 73120, 92768,
   92864, 93008, 120782, 120792, 120802, 120812, 120822, 123200, 123632,
   125264, 130032]

/-- The backslash-d atom of the Python version regexes: any Unicode
decimal digit, not only the ASCII ones. -/
def isDigitChar (c : Char) : Bool :=
  unicodeDigitBases.any fun base =>
    decide (base ≤ c.toNat) && decide (c.toNat ≤ base + 9)

/-- The identifier character class written literally in the prerelease and
buildmetadata atoms, the ASCII class of digits, letters and the hyphen. -/
def identChar (c : Char) : Bool :=
  isAsciiDigit c || (decide (97 ≤ c.toNat) && decide (c.toNat ≤ 122)) ||
    (decide (65 ≤ c.toNat) && decide (c.toNat ≤ 90)) || decide (c = '-')

/-- The [a-zA-Z-] class opening the third prerelease identifier
alternative: an ASCII letter or the hyphen. -/
def isLetterHyphen (c : Char) : Bool :=
  (decide (97 ≤ c.toNat) && decide (c.toNat ≤ 122)) ||
    (decide (65 ≤ c.toNat) && decide (c.toNat ≤ 90)) || decide (c = '-')

/-- Every character that can occur inside one prerelease identifier: the
ASCII identifier class plus the Unicode digits admitted by the
backslash-d runs of the first and third alternatives. -/
def preRunChar (c : Char) : Bool := identChar c || isDigitChar c

/-- Numeric value of a decimal digit character, as Python int reads it:
the offset from the zero digit of its run. -/
def digitVal (c : Char) : Nat :=
  match unicodeDigitBases.find? (fun base =>
      decide (base ≤ c.toNat) && decide (c.toNat ≤ base + 9)) with
  | some base => c.toNat - base
  | none => 0

/-- The decimal digit character of a value below ten. -/
def digitChar : Nat → Char
  | 0 => '0'
  | 1 => '1'
  | 2 => '2'
  | 3 => '3'
  | 4 => '4'
  | 5 => '5'
  | 6 => '6'
  | 7 => '7'
  | 8 => '8'
  | _ => '9'

/-- Value of a digit string, accumulated left to right as Python int does. -/
def digitsVal (cs : List Char) : Nat :=
  cs.foldl (fun a c => 10 * a + digitVal c) 0

/-- Fuel-indexed decimal rendering of a natural number (most significant
digit first); fuel n + 1 always suffices since the argument shrinks by a
factor of ten each step. -/
def natDigitsGo (fuel n : Nat) (acc : List Char) : List Char :=
  match fuel with
  | 0 => acc
  | fuel + 1 =>
    if n < 10 then digitChar n :: acc
    else natDigitsGo fuel (n / 10) (digitChar (n % 10) :: acc)

/-- Decimal rendering of a natural number, the model of Python str on a
non-negative int. -/
def natDigits (n : Nat) : List Char := natDigitsGo (n + 1) n []

/-- Model of Python str on an arbitrary int (a minus sign before the
decimal rendering of the absolute value). -/
def renderInt (i : Int) : List Char :=
  if i < 0 then '-' :: natDigits i.natAbs else natDigits i.toNat

/-- Embeds one numeric capture group, the alternation of the literal zero
digit with an ASCII nonzero digit followed by a backslash-d run (which
also admits Unicode decimal digits).  Returns the value and the unconsumed
remainder. -/
def parseNumComponent (cs : List Char) : Option (Nat × List Char) :=
  match cs with
  | [] => none
  | c :: rest =>
    if c = '0' then some (0, rest)
    else if isAsciiDigit c then
      some (digitsVal (c :: rest.takeWhile isDigitChar), rest.dropWhile isDigitChar)
    else none

/-- The dollar anchor of the Python regexes: end of string, or the
position just before one trailing newline. -/
def atEnd (cs : List Char) : Bool :=
  match cs with
  | [] => true
  | [c] => decide (c = '\n')
  | _ :: _ :: _ => false

/-- The third prerelease identifier alternative: a backslash-d digit run,
one ASCII letter or hyphen, then an ASCII identifier run.  The greedy
digit run is the maximal one because the letter class is disjoint from the
digit class. -/
def validPreAlpha (run : List Char) : Bool :=
  match run.dropWhile isDigitChar with
  | [] => false
  | c :: rest => isLetterHyphen c && rest.all identChar

/-- Whether a maximal preRunChar run matches one prerelease identifier:
the literal zero alone, an ASCII nonzero digit followed by a backslash-d
run, or the digits-letter-identifiers alternative.  The full run must be
matched because the character following it can continue no alternative. -/
def validPreIdent (run : List Char) : Bool :=
  match run with
  | [] => false
  | c :: rest =>
    (decide (c = '0') && rest.isEmpty) ||
    (isAsciiDigit c && decide (c ≠ '0') && rest.all isDigitChar) ||
    validPreAlpha (c :: rest)

/-- Embeds the dot-separated prerelease identifier sequence; returns the
remainder after the last identifier.  Fuel length cs + 1 always suffices
because every step consumes at least one character. -/
def matchPreGo (fuel : Nat) (cs : List Char) : Option (List Char) :=
  match fuel with
  | 0 => none
  | fuel + 1 =>
    if validPreIdent (cs.takeWhile preRunChar) then
      match cs.dropWhile preRunChar with
      | [] => some []
      | c :: rest2 => if c = '.' then matchPreGo fuel rest2 else some (c :: rest2)
    else none

/-- The prerelease sequence matcher at its sufficient fuel. -/
def matchPre (cs : List Char) : Option (List Char) := matchPreGo (cs.length + 1) cs

/-- Embeds the dot-separated buildmetadata identifier sequence followed by
the dollar anchor. -/
def matchMetaGo (fuel : Nat) (cs : List Char) : Bool :=
  match fuel with
  | 0 => false
  | fuel + 1 =>
    if (cs.takeWhile identChar).isEmpty then false
    else
      match cs.dropWhile identChar with
      | [] => atEnd []
      | c :: rest2 => if c = '.' then matchMetaGo fuel rest2 else atEnd (c :: rest2)

/-- The buildmetadata matcher at its sufficient fuel. -/
def matchMeta (cs : List Char) : Bool := matchMetaGo (cs.length + 1) cs

/-- Embeds the optional prerelease group, the optional buildmetadata group
and the dollar anchor that close both version regexes. -/
def matchSuffixAndEnd (cs : List Char) : Bool :=
  match cs with
  | [] => atEnd []
  | c :: rest =>
    if c = '-' then
      match matchPre rest with
      | none => false
      | some r =>
        match r with
        | [] => atEnd []
        | c2 :: rest3 => if c2 = '+' then matchMeta rest3 else atEnd (c2 :: rest3)
    else if c = '+' then matchMeta rest
    else atEnd (c :: rest)

/-- Embeds the common shape of SEMANTIC_VERSION_REGEX (patchRequired true)
and JENKINS_VERSION_REGEX (patchRequired false): major, dot, minor, then a
mandatory or optional dot-patch group, then suffixes and the anchor.
Returns the three numeric capture groups. -/
def matchVersionCore (patchRequired : Bool) (cs : List Char) :
    Option (Nat × Nat × Option Nat) :=
  match parseNumComponent cs with
  | none => none
  | some (ma, r1) =>
    match r1 with
    | [] => none
    | c :: r2 =>
      if c = '.' then
        match parseNumComponent r2 with
        | none => none
        | some (mi, r3) =>
          match r3 with
          | [] =>
            if patchRequired then none
            else if matchSuffixAndEnd [] then some (ma, mi, none) else none
          | c2 :: r4 =>
            if c2 = '.' then
              match parseNumComponent r4 with
              | none => none
              | some (pa, r5) =>
                if matchSuffixAndEnd r5 then some (ma, mi, some pa) else none
            else
              if patchRequired then none
              else if matchSuffixAndEnd (c2 :: r4) then some (ma, mi, none) else none
      else none

/-- Failure modes of the version constructors: MalformedVersion models the
TypeError raised when the re.match result is None and is subscripted;
NoneVersionString models the TypeError raised by re.match when the version
argument itself is None. -/
inductive VersionError
  | MalformedVersion
  | NoneVersionString
deriving DecidableEq

/-- Embeds SemanticVersion.__init__ on a version string: three mandatory
numeric groups become the int attributes. -/
def SemanticVersion.parse (version : List Char) : Except VersionError Version :=
  match matchVersionCore true version with
  | some (ma, mi, some pa) => Except.ok ⟨(ma : Int), (mi : Int), (pa : Int)⟩
  | some (_, _, none) => Except.error VersionError.MalformedVersion
  | none => Except.error VersionError.MalformedVersion

/-- Embeds JenkinsVersion.__init__ on a version string: an absent patch
group stores the reserved integer -1 (_IMPLICIT_PATCH_CHANGE_VERSION). -/
def JenkinsVersion.parse (version : List Char) : Except VersionError Version :=
  match matchVersionCore false version with
  | some (ma, mi, some pa) => Except.ok ⟨(ma : Int), (mi : Int), (pa : Int)⟩
  | some (ma, mi, none) => Except.ok ⟨(ma : Int), (mi : Int), -1⟩
  | none => Except.error VersionError.MalformedVersion

/-- Embeds JenkinsVersion.__init__ as called in main, where the argument
may be the None returned by get_jenkins_version. -/
def JenkinsVersion.parseOpt (version : Option (List Char)) : Except VersionError Version :=
  match version with
  | none => Except.error VersionError.NoneVersionString
  | some s => JenkinsVersion.parse s

/-- Embeds SemanticVersion.__str__ (and the f-string used by both __eq__
methods): major dot minor dot patch. -/
def SemanticVersion.render (v : Version) : List Char :=
  renderInt v.major ++ '.' :: renderInt v.minor ++ '.' :: renderInt v.patch

/-- Embeds JenkinsVersion.__str__: two components when the patch is the
implicit sentinel, three otherwise. -/
def JenkinsVersion.render (v : Version) : List Char :=
  if v.patch = -1 then renderInt v.major ++ '.' :: renderInt v.minor
  else renderInt v.major ++ '.' :: renderInt v.minor ++ '.' :: renderInt v.patch

/-- Embeds SemanticVersion.__eq__ and JenkinsVersion.__eq__, which compare
the two f-strings rendering all three components. -/
def eqVersion (a b : Version) : Bool :=
  SemanticVersion.render a == SemanticVersion.render b

/-
  Declarative version grammar: numeric components are digits with no
  leading zeros except the literal zero; an optional hyphen-prerelease and
  an optional plus-buildmetadata suffix close the string; the patch
  component is optional only in the relaxed (Jenkins) form.  The grammar
  is parameterized by the digit-run class D: instantiated with the ASCII
  digits it is the grammar as the specification states it; instantiated
  with the backslash-d class (every Unicode decimal digit) it is the
  language the program's regexes actually decide, since only the
  backslash-d atoms of the patterns reach beyond ASCII.
-/

/-- A numeric component with digit-run atom D: the literal zero alone, or
an ASCII nonzero digit followed by a run of D digits. -/
def NumStrD (D : Char → Bool) (s : List Char) : Prop :=
  s = ['0'] ∨ ∃ c rest, s = c :: rest ∧ isAsciiDigit c = true ∧ c ≠ '0' ∧
    ∀ d ∈ rest, D d = true

/-- A prerelease identifier with digit-run atom D: the literal zero alone,
an ASCII nonzero digit followed by a run of D digits, or a run of D digits
followed by an ASCII letter or hyphen and an ASCII identifier run. -/
def PreIdentD (D : Char → Bool) (s : List Char) : Prop :=
  s = ['0'] ∨
  (∃ c rest, s = c :: rest ∧ isAsciiDigit c = true ∧ c ≠ '0' ∧ ∀ d ∈ rest, D d = true) ∨
  (∃ ds c rest, s = ds ++ c :: rest ∧ (∀ d ∈ ds, D d = true) ∧
    isLetterHyphen c = true ∧ ∀ d ∈ rest, identChar d = true)

/-- A buildmetadata identifier: nonempty ASCII identifier characters (the
buildmetadata atoms contain no backslash-d). -/
def MetaIdent (s : List Char) : Prop :=
  s ≠ [] ∧ ∀ c ∈ s, identChar c = true

/-- Dot-separated prerelease identifiers over the digit-run atom D. -/
inductive PreStrD (D : Char → Bool) : List Char → Prop
  | single {s : List Char} : PreIdentD D s → PreStrD D s
  | dotted {s rest : List Char} : PreIdentD D s → PreStrD D rest → PreStrD D (s ++ '.' :: rest)

/-- Dot-separated buildmetadata identifiers. -/
inductive MetaStr : List Char → Prop
  | single {s : List Char} : MetaIdent s → MetaStr s
  | dotted {s rest : List Char} : MetaIdent s → MetaStr rest → MetaStr (s ++ '.' :: rest)

/-- The optional suffixes closing a version string: nothing, a prerelease,
a buildmetadata, or both in that order. -/
inductive SuffixStrD (D : Char → Bool) : List Char → Prop
  | empty : SuffixStrD D []
  | preOnly {p : List Char} : PreStrD D p → SuffixStrD D ('-' :: p)
  | metaOnly {m : List Char} : MetaStr m → SuffixStrD D ('+' :: m)
  | preMeta {p m : List Char} : PreStrD D p → MetaStr m → SuffixStrD D ('-' :: p ++ '+' :: m)

/-- The strict version grammar over the digit-run atom D: major dot minor
dot patch, then optional suffixes. -/
def SemverGrammarD (D : Char → Bool) (s : List Char) : Prop :=
  ∃ ma mi pa sfx, NumStrD D ma ∧ NumStrD D mi ∧ NumStrD D pa ∧ SuffixStrD D sfx ∧
    s = ma ++ '.' :: mi ++ '.' :: pa ++ sfx

/-- The relaxed (Jenkins) version grammar over the digit-run atom D: the
dot-patch group is optional. -/
def JenkinsGrammarD (D : Char → Bool) (s : List Char) : Prop :=
  ∃ ma mi rest, NumStrD D ma ∧ NumStrD D mi ∧
    (SuffixStrD D rest ∨ ∃ pa sfx, NumStrD D pa ∧ SuffixStrD D sfx ∧ rest = '.' :: pa ++ sfx) ∧
    s = ma ++ '.' :: mi ++ rest

/-- The characters the ASCII-digit (specification) grammar can emit:
identifier characters (covering digits, letters and the hyphen used by the
version core and the prerelease marker), the dot, and the plus sign. -/
def specGrammarChar (c : Char) : Bool :=
  identChar c || decide (c = '.') || decide (c = '+')

/-
  The change-scanning engine of main.  File paths are compared after
  joining with the repository working directory in the source; two joined
  paths are equal exactly when the change record's b_path equals the
  tracked file name, which is how paths are modelled here.
-/

/-- The tracked Dockerfile name (_DOCKERFILE). -/
def dockerfileChars : List Char := ['D', 'o', 'c', 'k', 'e', 'r', 'f', 'i', 'l', 'e']

/-- The tracked configuration-as-code file name. -/
def cascChars : List Char := ['c', 'a', 's', 'c', '.', 'y', 'a', 'm', 'l']

/-- The tracked plugin manifest file name. -/
def pluginsChars : List Char := ['p', 'l', 'u', 'g', 'i', 'n', 's', '.', 't', 'x', 't']

/-- The FROM keyword and following blank inside the two lookbehinds. -/
def from_space : List Char := ['F', 'R', 'O', 'M', ' ']

/-- The literal image reference with digest marker inside both patterns:
the qualified Jenkins image name, the at sign, and the digest prefix. -/
def jenkinsImageLit : List Char :=
  ['j', 'e', 'n', 'k', 'i', 'n', 's', '/', 'j', 'e', 'n', 'k', 'i', 'n', 's', ':',
   'l', 't', 's', '@', 's', 'h', 'a', '2', '5', '6', ':']

/-- The lookbehind of PRIOR_JENKINS_DOCKER_IMAGE: a minus sign, FROM and
a blank (the removed diff side). -/
def priorMarker : List Char := '-' :: from_space

/-- The lookbehind of CURRENT_JENKINS_DOCKER_IMAGE: a plus sign, FROM and
a blank (the added diff side). -/
def currentMarker : List Char := '+' :: from_space

/-- The word character class of the digest run; the ASCII model of the
regex word class, which suffices since digests are hexadecimal. -/
def wordChar (c : Char) : Bool :=
  isAsciiDigit c || (decide (97 ≤ c.toNat) && decide (c.toNat ≤ 122)) ||
    (decide (65 ≤ c.toNat) && decide (c.toNat ≤ 90)) || decide (c = '_')

/-- Whether the pattern occurs at the head of the text. -/
def startsWith : List Char → List Char → Bool
  | [], _ => true
  | _ :: _, [] => false
  | p :: ps, c :: cs => decide (p = c) && startsWith ps cs

/-- Embeds re.findall for the two image patterns: scans left to right and
collects, for every position where the marker, the image literal and a
nonempty word run follow, the matched text (which excludes the zero-width
lookbehind marker).  Scanning position by position agrees with the
non-overlapping semantics of findall because no later match can begin
inside an earlier one: the marker starts with a sign character that is
neither part of the literal nor a word character. -/
def findall_image (marker text : List Char) : List (List Char) :=
  match text with
  | [] => []
  | _ :: rest =>
    if startsWith (marker ++ jenkinsImageLit) text then
      if ((text.drop (marker ++ jenkinsImageLit).length).takeWhile wordChar).isEmpty then
        findall_image marker rest
      else
        (jenkinsImageLit ++ (text.drop (marker ++ jenkinsImageLit).length).takeWhile wordChar) ::
          findall_image marker rest
    else findall_image marker rest

/-- The first character class of ENV_VAR_REGEX: an ASCII letter or the
underscore. -/
def isAlphaUnderscore (c : Char) : Bool :=
  (decide (97 ≤ c.toNat) && decide (c.toNat ≤ 122)) ||
    (decide (65 ≤ c.toNat) && decide (c.toNat ≤ 90)) || decide (c = '_')

/-- Embeds re.search of ENV_VAR_REGEX: anchored at the start, a leading
letter or underscore, a maximal word run, an equals sign, and at least one
further character that is not a newline (the dot atom). -/
def env_var_regex_search (s : List Char) : Bool :=
  match s with
  | [] => false
  | c :: rest =>
    if isAlphaUnderscore c then
      match rest.dropWhile wordChar with
      | c2 :: d :: _ => decide (c2 = '=') && decide (d ≠ '\n')
      | _ => false
    else false

/-- The JENKINS_VERSION environment variable name. -/
def _JENKINS_VERSION_ENV_VAR_NAME : List Char :=
  ['J', 'E', 'N', 'K', 'I', 'N', 'S', '_', 'V', 'E', 'R', 'S', 'I', 'O', 'N']

/-- The head of Python split on the equals sign: everything before the
first equals sign. -/
def splitEqFirst (s : List Char) : List Char :=
  s.takeWhile fun c => decide (c ≠ '=')

/-- The second entry of Python split on the equals sign: everything
between the first and the second equals sign. -/
def splitEqSecond (s : List Char) : List Char :=
  ((s.dropWhile fun c => decide (c ≠ '=')).drop 1).takeWhile fun c => decide (c ≠ '=')

/-- Embeds get_jenkins_version on the environment entries of the pulled
image: returns the value part of the first entry that matches
ENV_VAR_REGEX and whose name part is JENKINS_VERSION, or None when no
entry qualifies. -/
def get_jenkins_version (jenkins_env_vars : List (List Char)) : Option (List Char) :=
  match jenkins_env_vars with
  | [] => none
  | env_var :: rest =>
    if env_var_regex_search env_var = true ∧
        splitEqFirst env_var = _JENKINS_VERSION_ENV_VAR_NAME then
      some (splitEqSecond env_var)
    else get_jenkins_version rest

/-- One file-level change record of the diff: the post-change path and the
decoded diff text. -/
structure ChangeRecord where
  b_path : List Char
  diff_text : List Char

/-- Failure modes of the change-record loop: the SystemExit raised on a
major Jenkins update (with its message), the IndexError of subscripting
the empty findall result for the current image, and the TypeErrors of the
JenkinsVersion constructor. -/
inductive StepError
  | MajorUpdate (msg : List Char)
  | IndexErrorCurrentImage
  | VersionFailure (e : VersionError)
deriving DecidableEq

/-- The mutable loop state of main: the accumulated repo update types and
the reseat flag. -/
structure ScanState where
  repo_update_types : List VersionUpdateTypes
  reseat_latest_version_tag : Bool
deriving DecidableEq

/-- The fixed text of the major-update SystemExit message before the prior
version. -/
def major_warning_head : List Char :=
  ['\n', '\n',
   'W', 'A', 'R', 'N', 'I', 'N', 'G', ':', ' ', 'T', 'h', 'e', ' ', 'c', 'u', 'r', 'r',
   'e', 'n', 't', ' ', 'J', 'e', 'n', 'k', 'i', 'n', 's', ' ', 'i', 'm', 'a', 'g', 'e',
   ' ', 'h', 'a', 's', ' ', 'h', 'a', 'd', ' ', 'a', ' ', 'm', 'a', 'j', 'o', 'r', ' ',
   'j', 'e', 'n', 'k', 'i', 'n', 's', ' ', 'v', 'e', 'r', 's', 'i', 'o', 'n', ' ', 'u',
   'p', 'd', 'a', 't', 'e', '.', '\n', '(']

/-- The arrow between the two versions in the message. -/
def major_warning_mid : List Char := [' ', '-', '>', ' ']

/-- The fixed text of the message after the current version. -/
def major_warning_suffix : List Char :=
  [')', '\n',
   'M', 'a', 'n', 'u', 'a', 'l', ' ', 't', 'a', 'g', 'g', 'i', 'n', 'g', ' ', 'w', 'i',
   'l', 'l', ' ', 'n', 'e', 'e', 'd', ' ', 't', 'o', ' ', 'o', 'c', 'c', 'u', 'r', ' ',
   'f', 'o', 'r', ' ', 't', 'h', 'i', 's', ' ', 'k', 'i', 'n', 'd', ' ', 'o', 'f', ' ',
   'u', 'p', 'd', 'a', 't', 'e', '.', '\n']

/-- The SystemExit message raised on a major Jenkins update, naming both
Jenkins versions through their JenkinsVersion renderings. -/
def major_update_message (prior current : Version) : List Char :=
  major_warning_head ++ JenkinsVersion.render prior ++ major_warning_mid ++
    JenkinsVersion.render current ++ major_warning_suffix

/-- Embeds one iteration of the change-record loop in main.  The image
metadata source is abstracted as the imageVersion oracle, mapping an image
reference to the result get_jenkins_version produces for it.  The source
guards the digest rule by the path test and a nonempty findall of the
prior pattern and falls to the general Dockerfile rule otherwise, which
the path test plus the match on the prior findall reproduces. -/
def process_chd_object (imageVersion : List Char → Option (List Char))
    (st : ScanState) (chd : ChangeRecord) : Except StepError ScanState :=
  if chd.b_path = dockerfileChars then
    match findall_image priorMarker chd.diff_text with
    | [] =>
      Except.ok { st with
        repo_update_types := st.repo_update_types ++ [VersionUpdateTypes.MINOR] }
    | prior_jenkins_img :: _ =>
      match findall_image currentMarker chd.diff_text with
      | [] => Except.error StepError.IndexErrorCurrentImage
      | current_jenkins_img :: _ =>
        match JenkinsVersion.parseOpt (imageVersion prior_jenkins_img) with
        | Except.error e => Except.error (StepError.VersionFailure e)
        | Except.ok prior_jenkins_version =>
          match JenkinsVersion.parseOpt (imageVersion current_jenkins_img) with
          | Except.error e => Except.error (StepError.VersionFailure e)
          | Except.ok current_jenkins_version =>
            if Version.determine_greatest_update_type
                (Version.determine_update_types prior_jenkins_version
                  current_jenkins_version) = some VersionUpdateTypes.PATCH then
              Except.ok { st with
                repo_update_types := st.repo_update_types ++ [VersionUpdateTypes.PATCH] }
            else if Version.determine_greatest_update_type
                (Version.determine_update_types prior_jenkins_version
                  current_jenkins_version) = some VersionUpdateTypes.MINOR then
              Except.ok { st with
                repo_update_types := st.repo_update_types ++ [VersionUpdateTypes.MINOR] }
            else if Version.determine_greatest_update_type
                (Version.determine_update_types prior_jenkins_version
                  current_jenkins_version) = some VersionUpdateTypes.MAJOR then
              Except.error (StepError.MajorUpdate
                (major_update_message prior_jenkins_version current_jenkins_version))
            else Except.ok st
  else if chd.b_path = cascChars then
    Except.ok { st with
      repo_update_types := st.repo_update_types ++ [VersionUpdateTypes.MINOR] }
  else if chd.b_path = pluginsChars then
    Except.ok { st with reseat_latest_version_tag := true }
  else Except.ok st

/-- Embeds the whole change-record loop of main as a fold over the diff,
from the empty initial state. -/
def scan_patch (imageVersion : List Char → Option (List Char))
    (patch : List ChangeRecord) : Except StepError ScanState :=
  patch.foldlM (process_chd_object imageVersion) ⟨[], false⟩

/-- The decision main reaches: the prior version, the working copy, and
whether a tag is created or the existing tag reseated. -/
structure TagDecision where
  prior : Version
  candidate : Version
  create : Bool
  reseat : Bool
deriving DecidableEq

/-- Embeds the tail of main after the loop: apply the greatest update type
to the working copy, create a tag when the working copy differs from the
prior version under the rendered-string inequality, otherwise reseat when
the plugin-manifest flag was set.  The three occurrences of apply_update
are the single working copy new_latest_version. -/
def tag_decision_engine (latest_version : Version)
    (imageVersion : List Char → Option (List Char))
    (patch : List ChangeRecord) : Except StepError TagDecision :=
  match scan_patch imageVersion patch with
  | Except.error e => Except.error e
  | Except.ok st =>
    if eqVersion (apply_update latest_version
        (Version.determine_greatest_update_type st.repo_update_types)) latest_version
        = false then
      Except.ok ⟨latest_version,
        apply_update latest_version
          (Version.determine_greatest_update_type st.repo_update_types), true, false⟩
    else if st.reseat_latest_version_tag = true then
      Except.ok ⟨latest_version,
        apply_update latest_version
          (Version.determine_greatest_update_type st.repo_update_types), false, true⟩
    else
      Except.ok ⟨latest_version,
        apply_update latest_version
          (Version.determine_greatest_update_type st.repo_update_types), false, false⟩

/-- A plugin-manifest-only change record, used as the concrete reseat
scenario. -/
def pluginsRecord : ChangeRecord := ⟨pluginsChars, []⟩

/-- A Dockerfile record whose diff contains the prior-image pattern only.-/
def onlyPriorRecord : ChangeRecord :=
  ⟨dockerfileChars, priorMarker ++ jenkinsImageLit ++ ['a', 'a']⟩

/-- A Dockerfile record whose diff contains no image pattern at all. -/
def noImageRecord : ChangeRecord := ⟨dockerfileChars, ['h', 'i']⟩

/-- The diff text of a Dockerfile digest change with both the removed and
added image lines. -/
def sampleDiffText : List Char :=
  priorMarker ++ jenkinsImageLit ++ ['a', 'a'] ++
    '\n' :: currentMarker ++ jenkinsImageLit ++ ['b', 'b']

/-- The Dockerfile change record of the sample digest change. -/
def sampleRecord : ChangeRecord := ⟨dockerfileChars, sampleDiffText⟩

/-- The image metadata oracle of the sample digest change: the prior image
carries Jenkins version 2.330, the current image version 3.1. -/
def sampleImageVersion (img : List Char) : Option (List Char) :=
  if img = jenkinsImageLit ++ ['a', 'a'] then
    get_jenkins_version [_JENKINS_VERSION_ENV_VAR_NAME ++ '=' :: ['2', '.', '3', '3', '0']]
  else
    get_jenkins_version [_JENKINS_VERSION_ENV_VAR_NAME ++ '=' :: ['3', '.', '1']]

lemma greatest_step_eq_omax :
    ∀ g v, greatest_step g v = omax g (some v) := by decide

lemma omax_step_left_comm :
    ∀ g a b, omax (omax g (some a)) (some b) = omax (omax g (some b)) (some a) := by decide

lemma foldl_greatest_eq_foldl_omax (vs : List VersionUpdateTypes) :
    ∀ g, vs.foldl greatest_step g = vs.foldl (fun g v => omax g (some v)) g := by
  induction vs with
  | nil => intro g; rfl
  | cons v t ih => intro g; simp only [List.foldl, greatest_step_eq_omax, ih]

lemma foldl_omax_perm {vs ws : List VersionUpdateTypes} (h : vs.Perm ws) :
    ∀ g, vs.foldl (fun g v => omax g (some v)) g = ws.foldl (fun g v => omax g (some v)) g := by
  induction h with
  | nil => intro g; rfl
  | cons x _ ih => intro g; simp only [List.foldl]; exact ih _
  | swap x y l => intro g; simp only [List.foldl, omax_step_left_comm]
  | trans _ _ ih1 ih2 => intro g; rw [ih1, ih2]

lemma sev_rank_le_omax_step : ∀ g v, sev_rank g ≤ sev_rank (omax g (some v)) := by decide

lemma rank_le_omax_step : ∀ g v, sev_rank (some v) ≤ sev_rank (omax g (some v)) := by decide

lemma omax_step_cases : ∀ g v, omax g (some v) = g ∨ omax g (some v) = some v := by decide

lemma foldl_omax_mono (vs : List VersionUpdateTypes) :
    ∀ g, sev_rank g ≤ sev_rank (vs.foldl (fun g v => omax g (some v)) g) := by
  induction vs with
  | nil => intro g; exact Nat.le_refl _
  | cons v t ih =>
      intro g
      exact Nat.le_trans (sev_rank_le_omax_step g v) (ih (omax g (some v)))

lemma foldl_omax_dominates (vs : List VersionUpdateTypes) :
    ∀ g v, v ∈ vs → sev_rank (some v) ≤ sev_rank (vs.foldl (fun g v => omax g (some v)) g) := by
  induction vs with
  | nil => intro g v hv; cases hv
  | cons w t ih =>
      intro g v hv
      rcases List.mem_cons.mp hv with h | h
      · subst h
        exact Nat.le_trans (rank_le_omax_step g v) (foldl_omax_mono t (omax g (some v)))
      · exact ih (omax g (some w)) v h

lemma foldl_omax_mem (vs : List VersionUpdateTypes) :
    ∀ g, vs.foldl (fun g v => omax g (some v)) g = g ∨
      ∃ m ∈ vs, vs.foldl (fun g v => omax g (some v)) g = some m := by
  induction vs with
  | nil => intro g; exact Or.inl rfl
  | cons v t ih =>
      intro g
      rcases ih (omax g (some v)) with h | ⟨m, hm, hres⟩
      · simp only [List.foldl]
        rcases omax_step_cases g v with hg | hv
        · rw [h, hg]; exact Or.inl rfl
        · rw [h, hv]; exact Or.inr ⟨v, List.mem_cons_self v t, rfl⟩
      · exact Or.inr ⟨m, List.mem_cons_of_mem v hm, by simpa [List.foldl] using hres⟩

/-- Claim C1: the aggregator Version.determine_greatest_update_type returns
the none sentinel on the empty sequence; on a nonempty sequence it returns
some element of the sequence whose rank under the total order MAJOR greater
than MINOR greater than PATCH dominates every element present; and its
result is invariant under permutation of the input sequence. -/
theorem determine_greatest_update_type_spec :
    Version.determine_greatest_update_type [] = none ∧
    (∀ vs : List VersionUpdateTypes, vs ≠ [] →
      ∃ m, Version.determine_greatest_update_type vs = some m ∧ m ∈ vs ∧
        ∀ v ∈ vs, sev_rank (some v) ≤ sev_rank (some m)) ∧
    (∀ vs ws : List VersionUpdateTypes, vs.Perm ws →
      Version.determine_greatest_update_type vs = Version.determine_greatest_update_type ws) := by
  refine ⟨rfl, ?_, ?_⟩
  · intro vs hne
    rw [Version.determine_greatest_update_type, foldl_greatest_eq_foldl_omax]
    rcases foldl_omax_mem vs none with h | ⟨m, hm, hres⟩
    · exfalso
      rcases vs with _ | ⟨v, t⟩
      · exact hne rfl
      · have hdom := foldl_omax_dominates (v :: t) none v (List.mem_cons_self v t)
        rw [h] at hdom
        cases v <;> simp [sev_rank] at hdom
    · refine ⟨m, hres, hm, ?_⟩
      intro v hv
      have := foldl_omax_dominates vs none v hv
      rwa [hres] at this
  · intro vs ws hperm
    rw [Version.determine_greatest_update_type, Version.determine_greatest_update_type,
      foldl_greatest_eq_foldl_omax, foldl_greatest_eq_foldl_omax]
    exact foldl_omax_perm hperm none

/-- Witness for claim C1 at concrete inputs: the two permutations from the
spec both reduce to MINOR, which dominates the multiset. -/
theorem determine_greatest_update_type_spec_witness :
    (∃ m, Version.determine_greatest_update_type
        [VersionUpdateTypes.PATCH, VersionUpdateTypes.MINOR, VersionUpdateTypes.PATCH] = some m ∧
      m ∈ [VersionUpdateTypes.PATCH, VersionUpdateTypes.MINOR, VersionUpdateTypes.PATCH] ∧
      ∀ v ∈ [VersionUpdateTypes.PATCH, VersionUpdateTypes.MINOR, VersionUpdateTypes.PATCH],
        sev_rank (some v) ≤ sev_rank (some m)) ∧
    Version.determine_greatest_update_type
        [VersionUpdateTypes.PATCH, VersionUpdateTypes.MINOR, VersionUpdateTypes.PATCH] =
      Version.determine_greatest_update_type
        [VersionUpdateTypes.MINOR, VersionUpdateTypes.PATCH, VersionUpdateTypes.PATCH] :=
  ⟨determine_greatest_update_type_spec.2.1 _ (by decide),
   determine_greatest_update_type_spec.2.2 _ _ (by decide)⟩

/-- Claim C5: Version.determine_update_types emits MAJOR exactly when the
majors differ, MINOR exactly when the minors differ, PATCH exactly when
the patches differ; several severities may appear together as in the
1.2.3 versus 2.5.9 example; and membership is unchanged when the two
arguments are swapped. -/
theorem determine_update_types_spec :
    (∀ a b : Version,
      (VersionUpdateTypes.MAJOR ∈ Version.determine_update_types a b ↔ a.major ≠ b.major) ∧
      (VersionUpdateTypes.MINOR ∈ Version.determine_update_types a b ↔ a.minor ≠ b.minor) ∧
      (VersionUpdateTypes.PATCH ∈ Version.determine_update_types a b ↔ a.patch ≠ b.patch) ∧
      (∀ t, t ∈ Version.determine_update_types a b ↔ t ∈ Version.determine_update_types b a)) ∧
    Version.determine_update_types ⟨1, 2, 3⟩ ⟨2, 5, 9⟩ =
      [VersionUpdateTypes.MAJOR, VersionUpdateTypes.MINOR, VersionUpdateTypes.PATCH] := by
  have char : ∀ a b : Version, Version.determine_update_types a b =
      (if a.major = b.major then [] else [VersionUpdateTypes.MAJOR]) ++
      (if a.minor = b.minor then [] else [VersionUpdateTypes.MINOR]) ++
      (if a.patch = b.patch then [] else [VersionUpdateTypes.PATCH]) := by
    intro a b
    by_cases h1 : a.major = b.major <;> by_cases h2 : a.minor = b.minor <;>
      by_cases h3 : a.patch = b.patch <;>
      simp [Version.determine_update_types, Int.natAbs_pos, sub_ne_zero, h1, h2, h3]
  constructor
  · intro a b
    by_cases h1 : a.major = b.major <;> by_cases h2 : a.minor = b.minor <;>
      by_cases h3 : a.patch = b.patch
    all_goals
      refine ⟨?_, ?_, ?_, ?_⟩ <;> simp [char, h1, h2, h3, eq_comm]
  · decide

/-- Claim C3: applying the aggregated severity to a working copy of the
prior version behaves exactly as specified: PATCH increments patch by one,
MINOR zeroes patch and increments minor, MAJOR zeroes patch and minor and
increments major, the none sentinel leaves the version unchanged, every
actual severity changes the version, and the 1.4.7 examples hold. -/
theorem apply_update_spec :
    (∀ v : Version, apply_update v (some VersionUpdateTypes.PATCH) =
      ⟨v.major, v.minor, v.patch + 1⟩) ∧
    (∀ v : Version, apply_update v (some VersionUpdateTypes.MINOR) =
      ⟨v.major, v.minor + 1, 0⟩) ∧
    (∀ v : Version, apply_update v (some VersionUpdateTypes.MAJOR) =
      ⟨v.major + 1, 0, 0⟩) ∧
    (∀ v : Version, apply_update v none = v) ∧
    (∀ (v : Version) (t : VersionUpdateTypes), apply_update v (some t) ≠ v) ∧
    apply_update ⟨1, 4, 7⟩ (some VersionUpdateTypes.MINOR) = ⟨1, 5, 0⟩ ∧
    apply_update ⟨1, 4, 7⟩ (some VersionUpdateTypes.MAJOR) = ⟨2, 0, 0⟩ := by
  refine ⟨fun v => rfl, fun v => rfl, fun v => rfl, fun v => rfl, ?_, by decide, by decide⟩
  intro v t h
  cases t with
  | MAJOR =>
      have h2 : v.major + 1 = v.major := congrArg Version.major h
      omega
  | MINOR =>
      have h2 : v.minor + 1 = v.minor := congrArg Version.minor h
      omega
  | PATCH =>
      have h2 : v.patch + 1 = v.patch := congrArg Version.patch h
      omega

lemma digitVal_digitChar (d : Nat) (h : d < 10) : digitVal (digitChar d) = d := by
  interval_cases d <;> rfl

lemma isAsciiDigit_digitChar (d : Nat) (h : d < 10) : isAsciiDigit (digitChar d) = true := by
  interval_cases d <;> decide

lemma isDigitChar_of_isAsciiDigit {c : Char} (h : isAsciiDigit c = true) :
    isDigitChar c = true := by
  rw [isAsciiDigit, Bool.and_eq_true, decide_eq_true_eq, decide_eq_true_eq] at h
  rw [isDigitChar]
  apply List.any_eq_true.mpr
  refine ⟨48, by decide, ?_⟩
  rw [Bool.and_eq_true, decide_eq_true_eq, decide_eq_true_eq]
  omega

lemma identChar_of_isAsciiDigit {c : Char} (h : isAsciiDigit c = true) :
    identChar c = true := by
  simp [identChar, h]

lemma identChar_of_isLetterHyphen {c : Char} (h : isLetterHyphen c = true) :
    identChar c = true := by
  simp only [isLetterHyphen, Bool.or_eq_true] at h
  simp only [identChar, Bool.or_eq_true]
  tauto

lemma specGrammarChar_of_identChar {c : Char} (h : identChar c = true) :
    specGrammarChar c = true := by
  simp [specGrammarChar, h]

lemma digitChar_ne_zero (d : Nat) (h0 : 0 < d) (h : d < 10) : digitChar d ≠ '0' := by
  interval_cases d <;> decide

lemma natDigitsGo_fuel : ∀ n fuel fuel2 acc, n < fuel → n < fuel2 →
    natDigitsGo fuel n acc = natDigitsGo fuel2 n acc := by
  intro n
  induction n using Nat.strong_induction_on with
  | _ n ih =>
    intro fuel fuel2 acc hf hf2
    cases fuel with
    | zero => omega
    | succ f =>
      cases fuel2 with
      | zero => omega
      | succ f2 =>
        by_cases h10 : n < 10
        · simp [natDigitsGo, h10]
        · simp only [natDigitsGo, h10, if_false]
          exact ih (n / 10) (by omega) f f2 _ (by omega) (by omega)

lemma natDigitsGo_acc : ∀ fuel n acc, natDigitsGo fuel n acc = natDigitsGo fuel n [] ++ acc := by
  intro fuel
  induction fuel with
  | zero => intro n acc; rfl
  | succ f ih =>
    intro n acc
    by_cases h10 : n < 10
    · simp [natDigitsGo, h10]
    · simp only [natDigitsGo, h10, if_false]
      rw [ih (n / 10) (digitChar (n % 10) :: acc), ih (n / 10) [digitChar (n % 10)]]
      simp

lemma natDigits_small {n : Nat} (h : n < 10) : natDigits n = [digitChar n] := by
  simp [natDigits, natDigitsGo, h]

lemma natDigits_step {n : Nat} (h : 10 ≤ n) :
    natDigits n = natDigits (n / 10) ++ [digitChar (n % 10)] := by
  rw [natDigits, natDigits]
  have h1 : natDigitsGo (n + 1) n [] = natDigitsGo n (n / 10) [digitChar (n % 10)] := by
    simp [natDigitsGo, Nat.not_lt.mpr h]
  rw [h1, natDigitsGo_fuel (n / 10) n (n / 10 + 1) _ (by omega) (by omega),
    natDigitsGo_acc]

lemma natDigits_ne_nil (n : Nat) : natDigits n ≠ [] := by
  by_cases h10 : n < 10
  · rw [natDigits_small h10]; simp
  · rw [natDigits_step (by omega)]; simp

lemma natDigits_all_digits : ∀ n, ∀ c ∈ natDigits n, isAsciiDigit c = true := by
  intro n
  induction n using Nat.strong_induction_on with
  | _ n ih =>
    by_cases h10 : n < 10
    · rw [natDigits_small h10]
      intro c hc
      rw [List.mem_singleton.mp hc]
      exact isAsciiDigit_digitChar n h10
    · rw [natDigits_step (by omega)]
      intro c hc
      rcases List.mem_append.mp hc with h | h
      · exact ih (n / 10) (by omega) c h
      · rw [List.mem_singleton.mp h]
        exact isAsciiDigit_digitChar _ (Nat.mod_lt _ (by omega))

lemma natDigits_head_ne_zero : ∀ n, 0 < n → ∀ c t, natDigits n = c :: t → c ≠ '0' := by
  intro n
  induction n using Nat.strong_induction_on with
  | _ n ih =>
    intro hn c t heq
    by_cases h10 : n < 10
    · rw [natDigits_small h10] at heq
      rw [(List.cons.injEq _ _ _ _).mp heq |>.1.symm]
      exact digitChar_ne_zero n hn h10
    · rw [natDigits_step (by omega)] at heq
      rcases hnd : natDigits (n / 10) with _ | ⟨c2, t2⟩
      · exact absurd hnd (natDigits_ne_nil _)
      · rw [hnd, List.cons_append] at heq
        have hc2 : c2 = c := ((List.cons.injEq _ _ _ _).mp heq).1
        rw [← hc2]
        exact ih (n / 10) (by omega) (by omega) c2 t2 hnd

lemma digitsVal_append (l : List Char) (c : Char) :
    digitsVal (l ++ [c]) = 10 * digitsVal l + digitVal c := by
  simp [digitsVal, List.foldl_append]

lemma digitsVal_natDigits : ∀ n, digitsVal (natDigits n) = n := by
  intro n
  induction n using Nat.strong_induction_on with
  | _ n ih =>
    by_cases h10 : n < 10
    · rw [natDigits_small h10]
      simp [digitsVal, digitVal_digitChar n h10]
    · rw [natDigits_step (by omega), digitsVal_append, ih (n / 10) (by omega),
        digitVal_digitChar _ (Nat.mod_lt _ (by omega))]
      omega

lemma takeWhile_append_of_all (p : Char → Bool) (l r : List Char)
    (hl : ∀ c ∈ l, p c = true) (hr : ∀ c t, r = c :: t → p c = false) :
    (l ++ r).takeWhile p = l ∧ (l ++ r).dropWhile p = r := by
  induction l with
  | nil =>
    simp only [List.nil_append]
    cases r with
    | nil => exact ⟨rfl, rfl⟩
    | cons c t =>
      have hc := hr c t rfl
      simp [List.takeWhile_cons, List.dropWhile_cons, hc]
  | cons c l ih =>
    have hc := hl c (List.mem_cons_self _ _)
    have ihl := ih fun d hd => hl d (List.mem_cons_of_mem _ hd)
    simp [List.takeWhile_cons, List.dropWhile_cons, hc, ihl.1, ihl.2]

lemma parseNum_natDigits (n : Nat) (rest : List Char)
    (hrest : ∀ c t, rest = c :: t → isDigitChar c = false) :
    parseNumComponent (natDigits n ++ rest) = some (n, rest) := by
  by_cases h0 : n = 0
  · subst h0
    rw [natDigits_small (by omega)]
    simp [parseNumComponent, digitChar]
  · rcases hnd : natDigits n with _ | ⟨c, t⟩
    · exact absurd hnd (natDigits_ne_nil _)
    · have hcne : c ≠ '0' := natDigits_head_ne_zero n (by omega) c t hnd
      have hdig : ∀ d ∈ c :: t, isAsciiDigit d = true := by
        rw [← hnd]; exact natDigits_all_digits n
      have htd := takeWhile_append_of_all isDigitChar t rest
        (fun d hd => isDigitChar_of_isAsciiDigit (hdig d (List.mem_cons_of_mem _ hd))) hrest
      have hval : digitsVal (c :: t) = n := by
        rw [← hnd]; exact digitsVal_natDigits n
      simp [parseNumComponent, hcne, hdig c (List.mem_cons_self _ _), htd.1, htd.2, hval]

lemma atEnd_sound {cs : List Char} (h : atEnd cs = true) : cs = [] ∨ cs = ['\n'] := by
  match cs with
  | [] => exact Or.inl rfl
  | [c] =>
      right
      rw [atEnd, decide_eq_true_eq] at h
      rw [h]
  | c :: c2 :: t =>
      rw [atEnd] at h
      exact (Bool.false_ne_true h).elim

lemma parseNum_sound {cs rest : List Char} {n : Nat}
    (h : parseNumComponent cs = some (n, rest)) :
    ∃ l, NumStrD isDigitChar l ∧ cs = l ++ rest := by
  match cs with
  | [] => cases h
  | c :: cs2 =>
    rw [parseNumComponent] at h
    by_cases hc0 : c = '0'
    · rw [if_pos hc0] at h
      obtain ⟨rfl, rfl⟩ : (0 = n ∧ cs2 = rest) := by
        simpa using h
      exact ⟨['0'], Or.inl rfl, by rw [hc0]; rfl⟩
    · rw [if_neg hc0] at h
      by_cases hcd : isAsciiDigit c = true
      · rw [if_pos hcd] at h
        obtain ⟨hn, hrest⟩ : (digitsVal (c :: cs2.takeWhile isDigitChar) = n ∧
            cs2.dropWhile isDigitChar = rest) := by
          simpa using h
        refine ⟨c :: cs2.takeWhile isDigitChar,
          Or.inr ⟨c, cs2.takeWhile isDigitChar, rfl, hcd, hc0,
            fun d hd => List.mem_takeWhile_imp hd⟩, ?_⟩
        rw [List.cons_append, ← hrest, List.takeWhile_append_dropWhile]
      · rw [if_neg hcd] at h
        cases h

lemma MetaIdent_of_takeWhile {cs : List Char} (hne : (cs.takeWhile identChar).isEmpty = false) :
    MetaIdent (cs.takeWhile identChar) :=
  ⟨by simpa [List.isEmpty_iff] using hne, fun c hc => List.mem_takeWhile_imp hc⟩

lemma PreIdentD_of_validPreIdent {run : List Char} (hv : validPreIdent run = true) :
    PreIdentD isDigitChar run := by
  match run with
  | [] => cases hv
  | c :: rest =>
    rw [validPreIdent, Bool.or_eq_true, Bool.or_eq_true] at hv
    rcases hv with (h1 | h2) | h3
    · rw [Bool.and_eq_true, decide_eq_true_eq] at h1
      left
      rw [h1.1, List.isEmpty_iff.mp h1.2]
    · rw [Bool.and_eq_true, Bool.and_eq_true, decide_eq_true_eq] at h2
      exact Or.inr (Or.inl ⟨c, rest, rfl, h2.1.1, h2.1.2,
        fun d hd => List.all_eq_true.mp h2.2 d hd⟩)
    · rw [validPreAlpha] at h3
      split at h3
      · cases h3
      · rename_i c2 rest2 hdw
        rw [Bool.and_eq_true] at h3
        have hsplit : c :: rest =
            (c :: rest).takeWhile isDigitChar ++ (c :: rest).dropWhile isDigitChar :=
          (List.takeWhile_append_dropWhile isDigitChar (c :: rest)).symm
        rw [hdw] at hsplit
        exact Or.inr (Or.inr ⟨(c :: rest).takeWhile isDigitChar, c2, rest2, hsplit,
          fun d hd => List.mem_takeWhile_imp hd, h3.1,
          fun d hd => List.all_eq_true.mp h3.2 d hd⟩)

lemma matchMetaGo_sound : ∀ fuel cs, matchMetaGo fuel cs = true →
    ∃ m e, MetaStr m ∧ (e = [] ∨ e = ['\n']) ∧ cs = m ++ e := by
  intro fuel
  induction fuel with
  | zero => intro cs h; cases h
  | succ f ih =>
    intro cs h
    rw [matchMetaGo] at h
    by_cases hne : (cs.takeWhile identChar).isEmpty = true
    · rw [if_pos hne] at h; cases h
    · rw [if_neg hne] at h
      have hid : MetaIdent (cs.takeWhile identChar) :=
        MetaIdent_of_takeWhile (by simpa using hne)
      have hsplit : cs = cs.takeWhile identChar ++ cs.dropWhile identChar :=
        (List.takeWhile_append_dropWhile identChar cs).symm
      split at h
      · rename_i hdw
        rw [hdw] at hsplit
        exact ⟨cs.takeWhile identChar, [], MetaStr.single hid, Or.inl rfl, hsplit⟩
      · rename_i c rest2 hdw
        by_cases hdot : c = '.'
        · rw [if_pos hdot] at h
          obtain ⟨m, e, hm, he, rfl⟩ := ih rest2 h
          subst hdot
          rw [hdw] at hsplit
          refine ⟨cs.takeWhile identChar ++ '.' :: m, e, MetaStr.dotted hid hm, he, ?_⟩
          conv_lhs => rw [hsplit]
          simp
        · rw [if_neg hdot] at h
          rcases atEnd_sound h with hnil | hnl
          · cases hnil
          · rw [hdw, hnl] at hsplit
            exact ⟨cs.takeWhile identChar, ['\n'], MetaStr.single hid, Or.inr rfl, hsplit⟩

lemma matchPreGo_sound : ∀ fuel cs r, matchPreGo fuel cs = some r →
    ∃ p, PreStrD isDigitChar p ∧ cs = p ++ r := by
  intro fuel
  induction fuel with
  | zero => intro cs r h; cases h
  | succ f ih =>
    intro cs r h
    rw [matchPreGo] at h
    by_cases hv : validPreIdent (cs.takeWhile preRunChar) = true
    · rw [if_pos hv] at h
      have hid := PreIdentD_of_validPreIdent hv
      have hsplit : cs = cs.takeWhile preRunChar ++ cs.dropWhile preRunChar :=
        (List.takeWhile_append_dropWhile preRunChar cs).symm
      split at h
      · rename_i hdw
        obtain rfl : ([] : List Char) = r := by simpa using h
        rw [hdw] at hsplit
        exact ⟨cs.takeWhile preRunChar, PreStrD.single hid, hsplit⟩
      · rename_i c rest2 hdw
        by_cases hdot : c = '.'
        · rw [if_pos hdot] at h
          obtain ⟨p, hp, rfl⟩ := ih rest2 r h
          subst hdot
          rw [hdw] at hsplit
          refine ⟨cs.takeWhile preRunChar ++ '.' :: p, PreStrD.dotted hid hp, ?_⟩
          conv_lhs => rw [hsplit]
          simp
        · rw [if_neg hdot] at h
          obtain rfl : c :: rest2 = r := by simpa using h
          rw [hdw] at hsplit
          exact ⟨cs.takeWhile preRunChar, PreStrD.single hid, hsplit⟩
    · rw [if_neg hv] at h; cases h

lemma matchSuffixAndEnd_sound : ∀ cs : List Char, matchSuffixAndEnd cs = true →
    ∃ sfx e, SuffixStrD isDigitChar sfx ∧ (e = [] ∨ e = ['\n']) ∧ cs = sfx ++ e := by
  intro cs h
  match cs with
  | [] => exact ⟨[], [], SuffixStrD.empty, Or.inl rfl, rfl⟩
  | c :: rest =>
    rw [matchSuffixAndEnd] at h
    by_cases hdash : c = '-'
    · rw [if_pos hdash] at h
      split at h
      · cases h
      · rename_i r hpre
        rw [matchPre] at hpre
        obtain ⟨p, hp, hrest⟩ := matchPreGo_sound _ rest r hpre
        split at h
        · subst hdash
          refine ⟨'-' :: p, [], SuffixStrD.preOnly hp, Or.inl rfl, ?_⟩
          rw [hrest]
          simp
        · rename_i c2 rest3
          by_cases hplus : c2 = '+'
          · rw [if_pos hplus] at h
            rw [matchMeta] at h
            obtain ⟨m, e, hm, he, hrest3⟩ := matchMetaGo_sound _ rest3 h
            subst hdash hplus
            refine ⟨'-' :: p ++ '+' :: m, e, SuffixStrD.preMeta hp hm, he, ?_⟩
            rw [hrest, hrest3]
            simp
          · rw [if_neg hplus] at h
            rcases atEnd_sound h with hnil | hnl
            · cases hnil
            · subst hdash
              refine ⟨'-' :: p, ['\n'], SuffixStrD.preOnly hp, Or.inr rfl, ?_⟩
              rw [hrest, hnl]
              simp
    · rw [if_neg hdash] at h
      by_cases hplus : c = '+'
      · rw [if_pos hplus] at h
        rw [matchMeta] at h
        obtain ⟨m, e, hm, he, hrest⟩ := matchMetaGo_sound _ rest h
        subst hplus
        exact ⟨'+' :: m, e, SuffixStrD.metaOnly hm, he, by rw [hrest]; simp⟩
      · rw [if_neg hplus] at h
        rcases atEnd_sound h with hnil | hnl
        · cases hnil
        · exact ⟨[], ['\n'], SuffixStrD.empty, Or.inr rfl, by rw [hnl]; rfl⟩

lemma matchVersionCore_true_sound {cs : List Char} {x : Nat × Nat × Option Nat}
    (h : matchVersionCore true cs = some x) :
    ∃ t, SemverGrammarD isDigitChar t ∧ (cs = t ∨ cs = t ++ ['\n']) := by
  rw [matchVersionCore] at h
  split at h
  · cases h
  · rename_i ma r1 hp1
    split at h
    · cases h
    · rename_i c r2
      by_cases hdot : c = '.'
      · rw [if_pos hdot] at h
        subst hdot
        split at h
        · cases h
        · rename_i mi r3 hp2
          split at h
          · rw [if_pos rfl] at h
            cases h
          · rename_i c2 r4
            by_cases hdot2 : c2 = '.'
            · rw [if_pos hdot2] at h
              subst hdot2
              split at h
              · cases h
              · rename_i pa r5 hp3
                by_cases hsfx : matchSuffixAndEnd r5 = true
                · obtain ⟨lma, hma, hcs⟩ := parseNum_sound hp1
                  obtain ⟨lmi, hmi, hr2⟩ := parseNum_sound hp2
                  obtain ⟨lpa, hpa, hr4⟩ := parseNum_sound hp3
                  obtain ⟨sfx, e, hs, he, hr5⟩ := matchSuffixAndEnd_sound _ hsfx
                  refine ⟨lma ++ '.' :: lmi ++ '.' :: lpa ++ sfx,
                    ⟨lma, lmi, lpa, sfx, hma, hmi, hpa, hs, rfl⟩, ?_⟩
                  rcases he with rfl | rfl
                  · left
                    rw [hcs, hr2, hr4, hr5]
                    simp
                  · right
                    rw [hcs, hr2, hr4, hr5]
                    simp
                · rw [if_neg hsfx] at h
                  cases h
            · rw [if_neg hdot2, if_pos rfl] at h
              cases h
      · rw [if_neg hdot] at h
        cases h

lemma matchVersionCore_false_sound {cs : List Char} {x : Nat × Nat × Option Nat}
    (h : matchVersionCore false cs = some x) :
    ∃ t, JenkinsGrammarD isDigitChar t ∧ (cs = t ∨ cs = t ++ ['\n']) := by
  rw [matchVersionCore] at h
  split at h
  · cases h
  · rename_i ma r1 hp1
    split at h
    · cases h
    · rename_i c r2
      by_cases hdot : c = '.'
      · rw [if_pos hdot] at h
        subst hdot
        split at h
        · cases h
        · rename_i mi r3 hp2
          split at h
          · obtain ⟨lma, hma, hcs⟩ := parseNum_sound hp1
            obtain ⟨lmi, hmi, hr2⟩ := parseNum_sound hp2
            refine ⟨lma ++ '.' :: lmi ++ [],
              ⟨lma, lmi, [], hma, hmi, Or.inl SuffixStrD.empty, rfl⟩, ?_⟩
            left
            rw [hcs, hr2]
            simp
          · rename_i c2 r4
            by_cases hdot2 : c2 = '.'
            · rw [if_pos hdot2] at h
              subst hdot2
              split at h
              · cases h
              · rename_i pa r5 hp3
                by_cases hsfx : matchSuffixAndEnd r5 = true
                · obtain ⟨lma, hma, hcs⟩ := parseNum_sound hp1
                  obtain ⟨lmi, hmi, hr2⟩ := parseNum_sound hp2
                  obtain ⟨lpa, hpa, hr4⟩ := parseNum_sound hp3
                  obtain ⟨sfx, e, hs, he, hr5⟩ := matchSuffixAndEnd_sound _ hsfx
                  refine ⟨lma ++ '.' :: lmi ++ '.' :: lpa ++ sfx,
                    ⟨lma, lmi, '.' :: lpa ++ sfx, hma, hmi,
                      Or.inr ⟨lpa, sfx, hpa, hs, rfl⟩, by simp⟩, ?_⟩
                  rcases he with rfl | rfl
                  · left
                    rw [hcs, hr2, hr4, hr5]
                    simp
                  · right
                    rw [hcs, hr2, hr4, hr5]
                    simp
                · rw [if_neg hsfx] at h
                  cases h
            · rw [if_neg hdot2, if_neg Bool.false_ne_true] at h
              by_cases hsfx : matchSuffixAndEnd (c2 :: r4) = true
              · obtain ⟨lma, hma, hcs⟩ := parseNum_sound hp1
                obtain ⟨lmi, hmi, hr2⟩ := parseNum_sound hp2
                obtain ⟨sfx, e, hs, he, hr4⟩ := matchSuffixAndEnd_sound _ hsfx
                refine ⟨lma ++ '.' :: lmi ++ sfx,
                  ⟨lma, lmi, sfx, hma, hmi, Or.inl hs, rfl⟩, ?_⟩
                rcases he with rfl | rfl
                · left
                  rw [hcs, hr2, hr4]
                  simp
                · right
                  rw [hcs, hr2, hr4]
                  simp
              · rw [if_neg hsfx] at h
                cases h
      · rw [if_neg hdot] at h
        cases h

lemma NumStrD_ascii_chars {s : List Char} (h : NumStrD isAsciiDigit s) :
    ∀ c ∈ s, specGrammarChar c = true := by
  rcases h with rfl | ⟨c0, rest, rfl, hA, _, hrest⟩
  · intro c hc
    rw [List.mem_singleton.mp hc]
    decide
  · intro c hc
    rcases List.mem_cons.mp hc with rfl | hc2
    · exact specGrammarChar_of_identChar (identChar_of_isAsciiDigit hA)
    · exact specGrammarChar_of_identChar (identChar_of_isAsciiDigit (hrest c hc2))

lemma PreIdentD_ascii_chars {s : List Char} (h : PreIdentD isAsciiDigit s) :
    ∀ c ∈ s, specGrammarChar c = true := by
  rcases h with rfl | ⟨c0, rest, rfl, hA, _, hrest⟩ | ⟨ds, c0, rest, rfl, hds, hl, hrest⟩
  · intro c hc
    rw [List.mem_singleton.mp hc]
    decide
  · intro c hc
    rcases List.mem_cons.mp hc with rfl | hc2
    · exact specGrammarChar_of_identChar (identChar_of_isAsciiDigit hA)
    · exact specGrammarChar_of_identChar (identChar_of_isAsciiDigit (hrest c hc2))
  · intro c hc
    rcases List.mem_append.mp hc with hc1 | hc1
    · exact specGrammarChar_of_identChar (identChar_of_isAsciiDigit (hds c hc1))
    · rcases List.mem_cons.mp hc1 with rfl | hc2
      · exact specGrammarChar_of_identChar (identChar_of_isLetterHyphen hl)
      · exact specGrammarChar_of_identChar (hrest c hc2)

lemma MetaIdent_chars {s : List Char} (h : MetaIdent s) :
    ∀ c ∈ s, specGrammarChar c = true := fun c hc =>
  specGrammarChar_of_identChar (h.2 c hc)

lemma PreStrD_ascii_chars {s : List Char} (h : PreStrD isAsciiDigit s) :
    ∀ c ∈ s, specGrammarChar c = true := by
  induction h with
  | single hid => exact PreIdentD_ascii_chars hid
  | dotted hid _ ih =>
      intro c hc
      rcases List.mem_append.mp hc with hc1 | hc1
      · exact PreIdentD_ascii_chars hid c hc1
      · rcases List.mem_cons.mp hc1 with rfl | hc2
        · decide
        · exact ih c hc2

lemma MetaStr_chars {s : List Char} (h : MetaStr s) :
    ∀ c ∈ s, specGrammarChar c = true := by
  induction h with
  | single hid => exact MetaIdent_chars hid
  | dotted hid _ ih =>
      intro c hc
      rcases List.mem_append.mp hc with hc1 | hc1
      · exact MetaIdent_chars hid c hc1
      · rcases List.mem_cons.mp hc1 with rfl | hc2
        · decide
        · exact ih c hc2

lemma SuffixStrD_ascii_chars {s : List Char} (h : SuffixStrD isAsciiDigit s) :
    ∀ c ∈ s, specGrammarChar c = true := by
  cases h with
  | empty => intro c hc; cases hc
  | preOnly hp =>
      intro c hc
      rcases List.mem_cons.mp hc with rfl | hc2
      · decide
      · exact PreStrD_ascii_chars hp c hc2
  | metaOnly hm =>
      intro c hc
      rcases List.mem_cons.mp hc with rfl | hc2
      · decide
      · exact MetaStr_chars hm c hc2
  | preMeta hp hm =>
      intro c hc
      rcases List.mem_append.mp hc with hc1 | hc1
      · rcases List.mem_cons.mp hc1 with rfl | hc2
        · decide
        · exact PreStrD_ascii_chars hp c hc2
      · rcases List.mem_cons.mp hc1 with rfl | hc2
        · decide
        · exact MetaStr_chars hm c hc2

lemma SemverGrammar_ascii_chars {s : List Char} (h : SemverGrammarD isAsciiDigit s) :
    ∀ c ∈ s, specGrammarChar c = true := by
  obtain ⟨ma, mi, pa, sfx, hma, hmi, hpa, hsfx, rfl⟩ := h
  intro c hc
  simp only [List.mem_append, List.mem_cons] at hc
  rcases hc with ((hm | hd | hm2) | hd2 | hm3) | hm4
  · exact NumStrD_ascii_chars hma c hm
  · rw [hd]; decide
  · exact NumStrD_ascii_chars hmi c hm2
  · rw [hd2]; decide
  · exact NumStrD_ascii_chars hpa c hm3
  · exact SuffixStrD_ascii_chars hsfx c hm4

lemma JenkinsGrammarD_head_digit {D : Char → Bool} {s : List Char}
    (h : JenkinsGrammarD D s) : ∃ c t, s = c :: t ∧ isAsciiDigit c = true := by
  obtain ⟨ma, mi, rest, hma, _, _, rfl⟩ := h
  rcases hma with rfl | ⟨c, rest2, rfl, hA, _, _⟩
  · exact ⟨'0', '.' :: mi ++ rest, by simp, by decide⟩
  · exact ⟨c, rest2 ++ '.' :: mi ++ rest, by simp, hA⟩

lemma SemverGrammarD_head_digit {D : Char → Bool} {s : List Char}
    (h : SemverGrammarD D s) : ∃ c t, s = c :: t ∧ isAsciiDigit c = true := by
  obtain ⟨ma, mi, pa, sfx, hma, _, _, _, rfl⟩ := h
  rcases hma with rfl | ⟨c, rest, rfl, hA, _, _⟩
  · exact ⟨'0', '.' :: mi ++ '.' :: pa ++ sfx, by simp, by decide⟩
  · exact ⟨c, rest ++ '.' :: mi ++ '.' :: pa ++ sfx, by simp, hA⟩

lemma renderInt_natCast (n : Nat) : renderInt (n : Int) = natDigits n := by
  rw [renderInt, if_neg (by omega)]
  norm_num

lemma matchVersionCore_render (req : Bool) (ma mi pa : Nat) :
    matchVersionCore req (natDigits ma ++ ('.' :: (natDigits mi ++ ('.' :: natDigits pa)))) =
      some (ma, mi, some pa) := by
  have h1 := parseNum_natDigits ma ('.' :: (natDigits mi ++ ('.' :: natDigits pa)))
    (by intro c t hct; cases hct; rfl)
  have h2 := parseNum_natDigits mi ('.' :: natDigits pa)
    (by intro c t hct; cases hct; rfl)
  have h3 : parseNumComponent (natDigits pa) = some (pa, []) := by
    simpa using parseNum_natDigits pa [] (by intro c t hct; cases hct)
  simp [matchVersionCore, h1, h2, h3, matchSuffixAndEnd, atEnd]

lemma matchVersionCore_render_nopatch (ma mi : Nat) :
    matchVersionCore false (natDigits ma ++ ('.' :: natDigits mi)) = some (ma, mi, none) := by
  have h1 := parseNum_natDigits ma ('.' :: natDigits mi)
    (by intro c t hct; cases hct; rfl)
  have h2 : parseNumComponent (natDigits mi) = some (mi, []) := by
    simpa using parseNum_natDigits mi [] (by intro c t hct; cases hct)
  simp [matchVersionCore, h1, h2, matchSuffixAndEnd, atEnd]

/-- Claim C7: for every valid component triple, parsing the rendered
string gives back the same triple under the structural (rendered-string)
equality contract, for both the strict and the relaxed form; a relaxed
version with implicit patch renders to two components and parses back with
the implicit patch, and one with an explicit patch renders to three
components, so round-tripping preserves the two-part versus three-part
form. -/
theorem parse_render_roundtrip :
    (∀ ma mi pa : Nat,
      SemanticVersion.parse (SemanticVersion.render ⟨(ma : Int), (mi : Int), (pa : Int)⟩) =
        Except.ok ⟨(ma : Int), (mi : Int), (pa : Int)⟩ ∧
      eqVersion ⟨(ma : Int), (mi : Int), (pa : Int)⟩ ⟨(ma : Int), (mi : Int), (pa : Int)⟩ =
        true) ∧
    (∀ ma mi : Nat,
      JenkinsVersion.parse (JenkinsVersion.render ⟨(ma : Int), (mi : Int), -1⟩) =
        Except.ok ⟨(ma : Int), (mi : Int), -1⟩ ∧
      JenkinsVersion.render ⟨(ma : Int), (mi : Int), -1⟩ =
        natDigits ma ++ '.' :: natDigits mi) ∧
    (∀ ma mi pa : Nat,
      JenkinsVersion.parse (JenkinsVersion.render ⟨(ma : Int), (mi : Int), (pa : Int)⟩) =
        Except.ok ⟨(ma : Int), (mi : Int), (pa : Int)⟩ ∧
      JenkinsVersion.render ⟨(ma : Int), (mi : Int), (pa : Int)⟩ =
        natDigits ma ++ '.' :: natDigits mi ++ '.' :: natDigits pa) := by
  refine ⟨?_, ?_, ?_⟩
  · intro ma mi pa
    have hr : SemanticVersion.render ⟨(ma : Int), (mi : Int), (pa : Int)⟩ =
        natDigits ma ++ ('.' :: (natDigits mi ++ ('.' :: natDigits pa))) := by
      simp [SemanticVersion.render, renderInt_natCast]
    constructor
    · simp [SemanticVersion.parse, hr, matchVersionCore_render]
    · simp [eqVersion]
  · intro ma mi
    have hr : JenkinsVersion.render ⟨(ma : Int), (mi : Int), -1⟩ =
        natDigits ma ++ ('.' :: natDigits mi) := by
      simp [JenkinsVersion.render, renderInt_natCast]
    constructor
    · simp [JenkinsVersion.parse, hr, matchVersionCore_render_nopatch]
    · exact hr
  · intro ma mi pa
    have hr : JenkinsVersion.render ⟨(ma : Int), (mi : Int), (pa : Int)⟩ =
        natDigits ma ++ ('.' :: (natDigits mi ++ ('.' :: natDigits pa))) := by
      rw [JenkinsVersion.render, if_neg (show ¬((pa : Int) = -1) by omega)]
      simp [renderInt_natCast]
    constructor
    · simp [JenkinsVersion.parse, hr, matchVersionCore_render]
    · rw [hr]
      simp

/-- Claim C9 (amended): parsing fails with the parse error (the TypeError
of subscripting a failed match, modelled MalformedVersion) for every input
string that neither belongs to the version grammar with its digit-run
atoms read as Python backslash-d (every Unicode decimal digit, not only
ASCII) nor consists of such a string followed by one trailing newline.
The two departures from the grammar as the specification words it are the
trailing-newline tolerance of the dollar anchor and the Unicode decimal
digits admitted by the backslash-d runs. -/
theorem malformed_version_rejected :
    (∀ s : List Char,
      ¬ (SemverGrammarD isDigitChar s ∨
          ∃ t, SemverGrammarD isDigitChar t ∧ s = t ++ ['\n']) →
      SemanticVersion.parse s = Except.error VersionError.MalformedVersion) ∧
    (∀ s : List Char,
      ¬ (JenkinsGrammarD isDigitChar s ∨
          ∃ t, JenkinsGrammarD isDigitChar t ∧ s = t ++ ['\n']) →
      JenkinsVersion.parse s = Except.error VersionError.MalformedVersion) := by
  constructor
  · intro s hs
    rcases hcore : matchVersionCore true s with _ | ⟨ma, mi, po⟩
    · rw [SemanticVersion.parse, hcore]
    · exfalso
      obtain ⟨t, ht, hcs⟩ := matchVersionCore_true_sound hcore
      rcases hcs with rfl | rfl
      · exact hs (Or.inl ht)
      · exact hs (Or.inr ⟨t, ht, rfl⟩)
  · intro s hs
    rcases hcore : matchVersionCore false s with _ | ⟨ma, mi, po⟩
    · rw [JenkinsVersion.parse, hcore]
    · exfalso
      obtain ⟨t, ht, hcs⟩ := matchVersionCore_false_sound hcore
      rcases hcs with rfl | rfl
      · exact hs (Or.inl ht)
      · exact hs (Or.inr ⟨t, ht, rfl⟩)

lemma not_semver_grammar_x :
    ¬ (SemverGrammarD isDigitChar ['x'] ∨
        ∃ t, SemverGrammarD isDigitChar t ∧ ['x'] = t ++ ['\n']) := by
  rintro (h | ⟨t, ht, hx⟩)
  · obtain ⟨c, t, hct, hd⟩ := SemverGrammarD_head_digit h
    cases hct
    exact absurd hd (by decide)
  · cases t with
    | nil => exact absurd hx (by decide)
    | cons a t2 =>
        rw [List.cons_append] at hx
        injection hx with h1 h2
        simp at h2

lemma not_jenkins_grammar_x :
    ¬ (JenkinsGrammarD isDigitChar ['x'] ∨
        ∃ t, JenkinsGrammarD isDigitChar t ∧ ['x'] = t ++ ['\n']) := by
  rintro (h | ⟨t, ht, hx⟩)
  · obtain ⟨c, t, hct, hd⟩ := JenkinsGrammarD_head_digit h
    cases hct
    exact absurd hd (by decide)
  · cases t with
    | nil => exact absurd hx (by decide)
    | cons a t2 =>
        rw [List.cons_append] at hx
        injection hx with h1 h2
        simp at h2

/-- Witness for the amended claim C9 at the concrete non-grammar input
consisting of the single letter x: both parsers reject it. -/
theorem malformed_version_rejected_witness :
    SemanticVersion.parse ['x'] = Except.error VersionError.MalformedVersion ∧
    JenkinsVersion.parse ['x'] = Except.error VersionError.MalformedVersion :=
  ⟨malformed_version_rejected.1 ['x'] not_semver_grammar_x,
   malformed_version_rejected.2 ['x'] not_jenkins_grammar_x⟩

/-- Counterexample to claim C9 as stated: two strings outside the version
grammar of the specification that the program nevertheless parses into
version values.  The string 1.2.3 followed by a newline parses to 1.2.3,
because the dollar anchor of Python re also matches just before one
trailing newline; and the string whose major part is the ASCII digit 1
followed by the Arabic-Indic digit three (code point 1635) parses to
13.2.3, because the backslash-d atoms match every Unicode decimal digit
and Python int converts such digits by their decimal values. -/
theorem semver_outside_grammar_accepted :
    (¬ SemverGrammarD isAsciiDigit ['1', '.', '2', '.', '3', '\n'] ∧
      SemanticVersion.parse ['1', '.', '2', '.', '3', '\n'] = Except.ok ⟨1, 2, 3⟩) ∧
    (¬ SemverGrammarD isAsciiDigit ['1', '٣', '.', '2', '.', '3'] ∧
      SemanticVersion.parse ['1', '٣', '.', '2', '.', '3'] = Except.ok ⟨13, 2, 3⟩) := by
  refine ⟨⟨?_, rfl⟩, ?_, rfl⟩
  · intro h
    exact absurd (SemverGrammar_ascii_chars h '\n' (by decide)) (by decide)
  · intro h
    exact absurd (SemverGrammar_ascii_chars h '٣' (by decide)) (by decide)

/-- Claim C2: comparing relaxed versions, an implicit patch (the reserved
integer -1) against any concrete patch value (a non-negative integer,
including zero) always yields a PATCH difference in either argument
order, even when major and minor agree; two implicit-patch versions with
equal major and minor yield no difference at all; concretely 2.333
parses with the implicit patch, 2.333.0 with patch zero, and the 2.333
versus 2.333.0 comparison yields exactly the PATCH difference while
2.333 versus 2.333 yields none. -/
theorem jenkins_implicit_patch_spec :
    (∀ a b : Version, a.patch = -1 → 0 ≤ b.patch →
      VersionUpdateTypes.PATCH ∈ Version.determine_update_types a b ∧
      VersionUpdateTypes.PATCH ∈ Version.determine_update_types b a) ∧
    (∀ a b : Version, a.patch = -1 → b.patch = -1 → a.major = b.major → a.minor = b.minor →
      Version.determine_update_types a b = []) ∧
    (JenkinsVersion.parse ['2', '.', '3', '3', '3'] = Except.ok ⟨2, 333, -1⟩ ∧
      JenkinsVersion.parse ['2', '.', '3', '3', '3', '.', '0'] = Except.ok ⟨2, 333, 0⟩ ∧
      Version.determine_update_types ⟨2, 333, -1⟩ ⟨2, 333, 0⟩ = [VersionUpdateTypes.PATCH] ∧
      Version.determine_update_types ⟨2, 333, -1⟩ ⟨2, 333, -1⟩ = []) := by
  refine ⟨?_, ?_, rfl, rfl, rfl, rfl⟩
  · intro a b hpa hpb
    have h1 : 0 < (a.patch - b.patch).natAbs := by omega
    have h2 : 0 < (b.patch - a.patch).natAbs := by omega
    constructor <;>
      · simp only [Version.determine_update_types]
        split_ifs <;> simp_all
  · intro a b h1 h2 h3 h4
    simp [Version.determine_update_types, h1, h2, h3, h4]

/-- Witness for claim C2 at the concrete 2.333 and 2.333.0 triples. -/
theorem jenkins_implicit_patch_spec_witness :
    (VersionUpdateTypes.PATCH ∈ Version.determine_update_types ⟨2, 333, -1⟩ ⟨2, 333, 0⟩ ∧
      VersionUpdateTypes.PATCH ∈ Version.determine_update_types ⟨2, 333, 0⟩ ⟨2, 333, -1⟩) ∧
    Version.determine_update_types ⟨2, 333, -1⟩ ⟨2, 333, -1⟩ = [] :=
  ⟨jenkins_implicit_patch_spec.1 ⟨2, 333, -1⟩ ⟨2, 333, 0⟩ rfl (by decide),
   jenkins_implicit_patch_spec.2.1 ⟨2, 333, -1⟩ ⟨2, 333, -1⟩ rfl rfl rfl rfl⟩

lemma foldlM_error_of_mem (imageVersion : List Char → Option (List Char)) :
    ∀ (l : List ChangeRecord) (st0 : ScanState) (chd : ChangeRecord), chd ∈ l →
      (∀ st, ∃ e, process_chd_object imageVersion st chd = Except.error e) →
      ∃ e, List.foldlM (process_chd_object imageVersion) st0 l = Except.error e := by
  intro l
  induction l with
  | nil => intro st0 chd hmem; cases hmem
  | cons hd tl ih =>
    intro st0 chd hmem herr
    rw [List.foldlM_cons]
    rcases List.mem_cons.mp hmem with rfl | hmem2
    · obtain ⟨e, he⟩ := herr st0
      exact ⟨e, by rw [he]; rfl⟩
    · rcases hres : process_chd_object imageVersion st0 hd with e2 | st1
      · exact ⟨e2, rfl⟩
      · obtain ⟨e, he⟩ := ih st1 chd hmem2 herr
        exact ⟨e, he⟩

/-- Claim C8: whenever the engine reaches a decision, creating and
reseating are never both requested; a tag is created exactly when the
working copy differs from the prior version under the rendered-string
equality contract; and reseating is requested only when the working copy
equals the prior version and the plugin-manifest reseat flag was set
during the scan. -/
theorem tag_decision_mutual_exclusion (lv : Version)
    (imageVersion : List Char → Option (List Char)) (patch : List ChangeRecord)
    (d : TagDecision) (h : tag_decision_engine lv imageVersion patch = Except.ok d) :
    ¬ (d.create = true ∧ d.reseat = true) ∧
    (d.create = true ↔ eqVersion d.candidate d.prior = false) ∧
    (d.reseat = true → eqVersion d.candidate d.prior = true ∧
      ∃ st, scan_patch imageVersion patch = Except.ok st ∧
        st.reseat_latest_version_tag = true) := by
  rw [tag_decision_engine] at h
  split at h
  · cases h
  · rename_i st hscan
    by_cases heq : eqVersion (apply_update lv
        (Version.determine_greatest_update_type st.repo_update_types)) lv = false
    · rw [if_pos heq] at h
      cases h
      refine ⟨by simp, by simpa using heq, by simp⟩
    · rw [if_neg heq] at h
      have heqt : eqVersion (apply_update lv
          (Version.determine_greatest_update_type st.repo_update_types)) lv = true := by
        revert heq
        cases eqVersion (apply_update lv
          (Version.determine_greatest_update_type st.repo_update_types)) lv <;> simp
      by_cases hres : st.reseat_latest_version_tag = true
      · rw [if_pos hres] at h
        cases h
        exact ⟨by simp, by simpa using heqt, fun _ => ⟨heqt, st, hscan, hres⟩⟩
      · rw [if_neg hres] at h
        cases h
        refine ⟨by simp, by simpa using heqt, by simp⟩

/-- Witness for claim C8 at the concrete reseat scenario: prior tag 1.2.0,
a change touching only the plugin manifest, reaching the decision that
reseats without creating. -/
theorem tag_decision_mutual_exclusion_witness :
    ¬ (TagDecision.create ⟨⟨1, 2, 0⟩, ⟨1, 2, 0⟩, false, true⟩ = true ∧
       TagDecision.reseat ⟨⟨1, 2, 0⟩, ⟨1, 2, 0⟩, false, true⟩ = true) ∧
    (TagDecision.create ⟨⟨1, 2, 0⟩, ⟨1, 2, 0⟩, false, true⟩ = true ↔
      eqVersion (TagDecision.candidate ⟨⟨1, 2, 0⟩, ⟨1, 2, 0⟩, false, true⟩)
        (TagDecision.prior ⟨⟨1, 2, 0⟩, ⟨1, 2, 0⟩, false, true⟩) = false) ∧
    (TagDecision.reseat ⟨⟨1, 2, 0⟩, ⟨1, 2, 0⟩, false, true⟩ = true →
      eqVersion (TagDecision.candidate ⟨⟨1, 2, 0⟩, ⟨1, 2, 0⟩, false, true⟩)
        (TagDecision.prior ⟨⟨1, 2, 0⟩, ⟨1, 2, 0⟩, false, true⟩) = true ∧
      ∃ st, scan_patch (fun _ => none) [pluginsRecord] = Except.ok st ∧
        st.reseat_latest_version_tag = true) :=
  tag_decision_mutual_exclusion ⟨1, 2, 0⟩ (fun _ => none) [pluginsRecord] _ rfl

/-- Claim C10: for a record whose path is the tracked Dockerfile, the
digest rule's firing condition tests only the prior-image pattern; when
the prior pattern matches but the current pattern finds nothing, the
record fails with the out-of-range indexing error instead of falling
through to the generic container-definition rule, and when the prior
pattern finds nothing the generic rule contributes MINOR. -/
theorem dockerfile_current_image_index_error
    (imageVersion : List Char → Option (List Char)) (chd : ChangeRecord)
    (hpath : chd.b_path = dockerfileChars) :
    (∀ pi ps, findall_image priorMarker chd.diff_text = pi :: ps →
      findall_image currentMarker chd.diff_text = [] →
      ∀ st, process_chd_object imageVersion st chd =
        Except.error StepError.IndexErrorCurrentImage) ∧
    (findall_image priorMarker chd.diff_text = [] →
      ∀ st, process_chd_object imageVersion st chd =
        Except.ok { st with
          repo_update_types := st.repo_update_types ++ [VersionUpdateTypes.MINOR] }) := by
  constructor
  · intro pi ps hfp hfc st
    simp [process_chd_object, hpath, hfp, hfc]
  · intro hfp st
    simp [process_chd_object, hpath, hfp]

/-- Witness for claim C10 at concrete records: with only the prior pattern
present the record errors with the indexing failure, and with no pattern
the generic rule appends MINOR. -/
theorem dockerfile_current_image_index_error_witness :
    process_chd_object (fun _ => none) ⟨[], false⟩ onlyPriorRecord =
      Except.error StepError.IndexErrorCurrentImage ∧
    process_chd_object (fun _ => none) ⟨[], false⟩ noImageRecord =
      Except.ok ⟨[VersionUpdateTypes.MINOR], false⟩ :=
  ⟨(dockerfile_current_image_index_error (fun _ => none) onlyPriorRecord rfl).1
      (jenkinsImageLit ++ ['a', 'a']) [] rfl rfl ⟨[], false⟩,
   (dockerfile_current_image_index_error (fun _ => none) noImageRecord rfl).2 rfl ⟨[], false⟩⟩

/-- Claim C6 (amended): when no environment entry of the pulled image
matches the JENKINS_VERSION variable, get_jenkins_version returns None;
main then passes that None straight into the JenkinsVersion constructor,
whose re.match call raises a TypeError, so processing the fired record
aborts the run instead of silently skipping the rule. -/
theorem missing_jenkins_version_errors :
    (∀ env : List (List Char),
      (∀ ev ∈ env, ¬ (env_var_regex_search ev = true ∧
        splitEqFirst ev = _JENKINS_VERSION_ENV_VAR_NAME)) →
      get_jenkins_version env = none) ∧
    (∀ (imageEnv : List Char → List (List Char)) (chd : ChangeRecord) (pi ci : List Char)
        (ps cs2 : List (List Char)),
      chd.b_path = dockerfileChars →
      findall_image priorMarker chd.diff_text = pi :: ps →
      findall_image currentMarker chd.diff_text = ci :: cs2 →
      get_jenkins_version (imageEnv pi) = none →
      ∀ st, process_chd_object (fun img => get_jenkins_version (imageEnv img)) st chd =
        Except.error (StepError.VersionFailure VersionError.NoneVersionString)) := by
  constructor
  · intro env hno
    induction env with
    | nil => rfl
    | cons ev rest ih =>
      rw [get_jenkins_version, if_neg (hno ev (List.mem_cons_self _ _))]
      exact ih fun ev2 hev2 => hno ev2 (List.mem_cons_of_mem _ hev2)
  · intro imageEnv chd pi ci ps cs2 hpath hfp hfc hnone st
    simp [process_chd_object, hpath, hfp, hfc, hnone, JenkinsVersion.parseOpt]

/-- Witness for the amended claim C6 at concrete inputs: the empty
environment yields None, and processing the fired sample record under an
image metadata source with no matching variable fails with the TypeError
of constructing a JenkinsVersion from None. -/
theorem missing_jenkins_version_errors_witness :
    get_jenkins_version [] = none ∧
    process_chd_object (fun img => get_jenkins_version ((fun _ => []) img)) ⟨[], false⟩
        sampleRecord =
      Except.error (StepError.VersionFailure VersionError.NoneVersionString) :=
  ⟨missing_jenkins_version_errors.1 [] (by intro ev hev; cases hev),
   missing_jenkins_version_errors.2 (fun _ => []) sampleRecord
     (jenkinsImageLit ++ ['a', 'a']) (jenkinsImageLit ++ ['b', 'b']) [] []
     rfl rfl rfl rfl ⟨[], false⟩⟩

/-- Counterexample to claim C6 as stated: with an image metadata source
that returns no JENKINS_VERSION variable (so get_jenkins_version yields
its none value), running the engine on a fired digest-rule record does
not continue silently; the whole run aborts with the constructor failure
on the None version string, and no decision is produced. -/
theorem missing_jenkins_version_fails_run :
    get_jenkins_version [] = none ∧
    tag_decision_engine ⟨1, 2, 0⟩ (fun _ => get_jenkins_version []) [sampleRecord] =
      Except.error (StepError.VersionFailure VersionError.NoneVersionString) :=
  ⟨rfl, rfl⟩

/-- Claim C4: whenever the digest rule fires and the classified-and-reduced
severity of the two extracted Jenkins versions is MAJOR, processing the
record raises the SystemExit whose message names both rendered versions,
independent of the accumulated state, and any run whose diff contains the
record aborts with an error, so no decision (and hence no tag creation or
reseat) is reached. -/
theorem major_update_aborts_run
    (imageVersion : List Char → Option (List Char)) (chd : ChangeRecord)
    (pi ci : List Char) (ps cs2 : List (List Char)) (pv cv : Version)
    (hpath : chd.b_path = dockerfileChars)
    (hfp : findall_image priorMarker chd.diff_text = pi :: ps)
    (hfc : findall_image currentMarker chd.diff_text = ci :: cs2)
    (hpv : JenkinsVersion.parseOpt (imageVersion pi) = Except.ok pv)
    (hcv : JenkinsVersion.parseOpt (imageVersion ci) = Except.ok cv)
    (hmaj : Version.determine_greatest_update_type
      (Version.determine_update_types pv cv) = some VersionUpdateTypes.MAJOR) :
    (∀ st, process_chd_object imageVersion st chd =
      Except.error (StepError.MajorUpdate (major_update_message pv cv))) ∧
    (∃ s t, major_update_message pv cv = s ++ JenkinsVersion.render pv ++ t) ∧
    (∃ s t, major_update_message pv cv = s ++ JenkinsVersion.render cv ++ t) ∧
    (∀ lv patch, chd ∈ patch →
      ∃ e, tag_decision_engine lv imageVersion patch = Except.error e) := by
  have hstep : ∀ st, process_chd_object imageVersion st chd =
      Except.error (StepError.MajorUpdate (major_update_message pv cv)) := by
    intro st
    simp [process_chd_object, hpath, hfp, hfc, hpv, hcv, hmaj]
  refine ⟨hstep, ?_, ?_, ?_⟩
  · exact ⟨major_warning_head,
      major_warning_mid ++ JenkinsVersion.render cv ++ major_warning_suffix,
      by simp [major_update_message]⟩
  · exact ⟨major_warning_head ++ JenkinsVersion.render pv ++ major_warning_mid,
      major_warning_suffix, by simp [major_update_message]⟩
  · intro lv patch hmem
    obtain ⟨e, he⟩ := foldlM_error_of_mem imageVersion patch ⟨[], false⟩ chd hmem
      fun st => ⟨_, hstep st⟩
    have hscan : scan_patch imageVersion patch = Except.error e := he
    refine ⟨e, ?_⟩
    rw [tag_decision_engine, hscan]

/-- Witness for claim C4 at the 2.330 to 3.1 sample: the record processing
raises the SystemExit and the run on that single-record diff errors. -/
theorem major_update_aborts_run_witness :
    process_chd_object sampleImageVersion ⟨[], false⟩ sampleRecord =
      Except.error (StepError.MajorUpdate
        (major_update_message ⟨2, 330, -1⟩ ⟨3, 1, -1⟩)) ∧
    ∃ e, tag_decision_engine ⟨1, 2, 0⟩ sampleImageVersion [sampleRecord] =
      Except.error e :=
  ⟨(major_update_aborts_run sampleImageVersion sampleRecord
      (jenkinsImageLit ++ ['a', 'a']) (jenkinsImageLit ++ ['b', 'b']) [] []
      ⟨2, 330, -1⟩ ⟨3, 1, -1⟩ rfl rfl rfl rfl rfl rfl).1 ⟨[], false⟩,
   (major_update_aborts_run sampleImageVersion sampleRecord
      (jenkinsImageLit ++ ['a', 'a']) (jenkinsImageLit ++ ['b', 'b']) [] []
      ⟨2, 330, -1⟩ ⟨3, 1, -1⟩ rfl rfl rfl rfl rfl rfl).2.2.2 ⟨1, 2, 0⟩ [sampleRecord]
      (List.mem_cons_self _ _)⟩

end Autotag
